import Mathlib

/-!
Verification of the `webdaily` static-site maintenance scripts
(`scripts/generate_site_index.js` and the unnamed sibling script).

The development shallowly embeds the pure core of both scripts: the
recursive directory walk (`walk`), the sitemap / index / latest-changes
renderers, and the small string helpers (`toWebPath`, `safeName`,
`escapeXml`, `encodeURI`).  Filesystem input is modelled as a finite tree
of named entries (`FSEntry`); the version-control query is modelled by an
`Except` value, mirroring the `try { ... } catch { changedFiles = [] }`
pattern of the scripts.  JavaScript string operations are modelled
character-wise over `String.data` so that every definition evaluates on
concrete inputs.
-/

set_option maxHeartbeats 1000000
set_option maxRecDepth 100000

/-- A filesystem entry as seen by `fs.readdirSync(dir, { withFileTypes: true })`:
either a plain file or a directory with its own listed entries.  The order of
`children` models the (unspecified) order in which the operating system
returns directory entries. -/
inductive FSEntry where
  | file (name : String)
  | dir (name : String) (children : List FSEntry)
deriving Repr

/-- The name of an entry (`ent.name` in the scripts). -/
def FSEntry.name : FSEntry → String
  | .file n => n
  | .dir n _ => n

/-- One page file in the built tree: `{ name: ent.name, rel: toWebPath(rel) }`. -/
structure PageEntry where
  name : String
  rel : String
deriving DecidableEq, Repr

/-- One folder node in the built tree:
`{ name: ent.name, rel: toWebPath(rel), folders, pages }` (the `...sub`
spread).  The root object returned by `walk` carries empty `name`/`rel`
fields, matching the `rel = ''` the scripts use for the root in
`collectFolderNodes(tree, '')`. -/
inductive DirNode where
  | mk (name : String) (rel : String) (folders : List DirNode) (pages : List PageEntry)
deriving Repr

def DirNode.name : DirNode → String
  | .mk n _ _ _ => n

def DirNode.rel : DirNode → String
  | .mk _ r _ _ => r

def DirNode.folders : DirNode → List DirNode
  | .mk _ _ f _ => f

def DirNode.pages : DirNode → List PageEntry
  | .mk _ _ _ p => p

/-- A `{ rel, node }` element of the list built by `collectFolderNodes`. -/
structure RelNode where
  rel : String
  node : DirNode
deriving Repr

/-- `l` starts with the pattern `pat` (character-wise). -/
def startsList : List Char → List Char → Bool
  | _, [] => true
  | [], _ :: _ => false
  | c :: cs, p :: ps => c == p && startsList cs ps

/-- `l` ends with the pattern `s` (character-wise). -/
def endsList (l s : List Char) : Bool :=
  List.drop (l.length - s.length) l == s

/-- `ent.name.startsWith('.')` — the hidden-entry filter of `walk`. -/
def isHidden (n : String) : Bool :=
  startsList n.data ['.']

/-- `ent.name.toLowerCase().endsWith('.html')` — the page filter of `walk`,
with `toLowerCase` modelled character-wise. -/
def isHtmlName (n : String) : Bool :=
  endsList (n.data.map Char.toLower) ".html".data

/-- `toWebPath` from the scripts:
`p.replace(/\\/g, '/').replace(/^\.\//, '')` — every backslash becomes a
forward slash, then at most one leading `./` is stripped. -/
def toWebPath (p : String) : String :=
  let q := p.data.map fun c => if c = '\\' then '/' else c
  match q with
  | '.' :: '/' :: rest => ⟨rest⟩
  | _ => ⟨q⟩

/-- Relative-path concatenation: the path of a child named `n` of the
directory whose path relative to the scan root is `pre` (empty for the root
itself).  This is the value `path.relative(base, full)` takes in the scripts,
and also the literal `rel ? rel + '/' + fd.name : fd.name` used by
`collectFolderNodes` and `collectPagesUnder`. -/
def joinRel (pre n : String) : String :=
  if pre = "" then n else pre ++ "/" ++ n

/-- Three-way lexicographic comparison of two lists of naturals. -/
def cmpNatList : List Nat → List Nat → Ordering
  | [], [] => Ordering.eq
  | [], _ :: _ => Ordering.lt
  | _ :: _, [] => Ordering.gt
  | a :: as, b :: bs =>
    if a < b then Ordering.lt
    else if b < a then Ordering.gt
    else cmpNatList as bs

/-- Primary collation key of a string: its characters case-folded to lower
case.  Models the primary (case-insensitive) strength of the default-locale
collation used by JavaScript `String.prototype.localeCompare` on the ASCII
names this repository deals with. -/
def primaryKey (s : String) : List Nat :=
  s.data.map fun c => c.toLower.toNat

/-- Case key of a string: `0` for a non-uppercase character, `1` for an
uppercase one.  Models the tertiary (case) strength of the default-locale
collation, under which a lowercase letter precedes its uppercase form. -/
def caseKey (s : String) : List Nat :=
  s.data.map fun c => if c.isUpper then 1 else 0

/-- Model of `a.localeCompare(b)` under the default locale, restricted to the
ASCII file names the scripts deal with: the whole primary (case-folded) keys
are compared first, and only on a primary tie does the case key decide.  In
particular `"a.html"` compares *before* `"B.html"` (primary `a < b`), unlike
plain code-unit comparison. -/
def localeCompare (a b : String) : Ordering :=
  match cmpNatList (primaryKey a) (primaryKey b) with
  | Ordering.eq => cmpNatList (caseKey a) (caseKey b)
  | o => o

/-- The "may come before" preorder induced by the sort comparator
`(a, b) => a.name.localeCompare(b.name)`: a comparison result that is not
positive keeps the pair in order. -/
def localeLe (a b : String) : Prop :=
  localeCompare a b ≠ Ordering.gt

instance : DecidableRel localeLe :=
  fun a b => inferInstanceAs (Decidable (localeCompare a b ≠ Ordering.gt))

/-- The sort order on folder nodes: `(a, b) => a.name.localeCompare(b.name)`. -/
def folderLe (a b : DirNode) : Prop := localeLe a.name b.name

instance : DecidableRel folderLe :=
  fun a b => inferInstanceAs (Decidable (localeLe a.name b.name))

/-- The sort order on page entries: `(a, b) => a.name.localeCompare(b.name)`. -/
def pageLe (a b : PageEntry) : Prop := localeLe a.name b.name

instance : DecidableRel pageLe :=
  fun a b => inferInstanceAs (Decidable (localeLe a.name b.name))

/-- `folders.sort((a, b) => a.name.localeCompare(b.name))`.  JavaScript's
`Array.prototype.sort` is a stable sort; a stable sort for a total preorder
comparator is unique, so the insertion sort used here computes the same
list. -/
def sortFolders (l : List DirNode) : List DirNode :=
  List.insertionSort folderLe l

/-- `pages.sort((a, b) => a.name.localeCompare(b.name))`. -/
def sortPages (l : List PageEntry) : List PageEntry :=
  List.insertionSort pageLe l

mutual

/-- The contribution of one entry to `walk`'s `folders`/`pages` arrays:
hidden entries contribute nothing, a directory contributes one folder node
(with its recursively built, sorted subtree spread into it), and a file
contributes one page entry when its lowercased name ends in `.html`. -/
def walkEntry : FSEntry → String → List DirNode × List PageEntry
  | .file n, pre =>
    if isHidden n then ([], [])
    else if isHtmlName n then ([], [⟨n, toWebPath (joinRel pre n)⟩])
    else ([], [])
  | .dir n ch, pre =>
    if isHidden n then ([], [])
    else
      let sub := walkEntries ch (joinRel pre n)
      ([DirNode.mk n (toWebPath (joinRel pre n)) (sortFolders sub.1) (sortPages sub.2)], [])

/-- The `for (const ent of entries)` loop of `walk`: each entry pushes its
contribution, in listing order, onto the `folders` and `pages` arrays. -/
def walkEntries : List FSEntry → String → List DirNode × List PageEntry
  | [], _ => ([], [])
  | e :: rest, pre =>
    let h := walkEntry e pre
    let r := walkEntries rest pre
    (h.1 ++ r.1, h.2 ++ r.2)

end

/-- Embedding of `walk(dir, base)`: collect the directory's entries, then
sort folders and pages by name with `localeCompare`.  `pre` is the path of
`dir` relative to the scan root (`""` at the root). -/
def walk (entries : List FSEntry) (pre : String) : DirNode :=
  let c := walkEntries entries pre
  DirNode.mk "" "" (sortFolders c.1) (sortPages c.2)

/-- Concatenation of a list of strings (used to model character-wise
`String.prototype.replace`). -/
def concatAll : List String → String
  | [] => ""
  | s :: rest => s ++ concatAll rest

/-- `list.join(sep)` of JavaScript. -/
def joinSep (sep : String) : List String → String
  | [] => ""
  | [s] => s
  | s :: rest => s ++ sep ++ joinSep sep rest

/-- The replacement applied to one character by
`replace(/[<>&'"]/g, c => ({...}[c]))` in `escapeXml`. -/
def escChar (c : Char) : String :=
  if c = '<' then "&lt;"
  else if c = '>' then "&gt;"
  else if c = '&' then "&amp;"
  else if c = '\'' then "&apos;"
  else if c = '"' then "&quot;"
  else ⟨[c]⟩

/-- `escapeXml` from the scripts: every occurrence of one of the five
reserved XML characters is replaced by its entity, all other characters are
kept. -/
def escapeXml (s : String) : String :=
  concatAll (s.data.map escChar)

/-- `rel.replace(/[\/\\]/g, '_')` — slashes and backslashes become
underscores. -/
def slashToUnderscore (s : String) : String :=
  ⟨s.data.map fun c => if c = '/' then '_' else if c = '\\' then '_' else c⟩

/-- The whitespace class `\s` of JavaScript regular expressions. -/
def isJsWs (c : Char) : Bool :=
  [9, 10, 11, 12, 13, 32, 0xa0, 0x1680, 0x2028, 0x2029, 0x202f, 0x205f,
    0x3000, 0xfeff].contains c.toNat
  || (0x2000 ≤ c.toNat && c.toNat ≤ 0x200a)

/-- Character-list worker for `replace(/\s+/g, '_')`: a maximal run of
whitespace becomes a single underscore.  The boolean records whether the
previous character was part of a whitespace run. -/
def collapseWsAux : List Char → Bool → List Char
  | [], _ => []
  | c :: cs, inRun =>
    if isJsWs c then
      if inRun then collapseWsAux cs true
      else '_' :: collapseWsAux cs true
    else c :: collapseWsAux cs false

/-- `s.replace(/\s+/g, '_')`. -/
def collapseWs (s : String) : String :=
  ⟨collapseWsAux s.data false⟩

/-- `safeName` from `generate_site_index.js`: an empty relative path maps to
`'__root'`; otherwise path separators become underscores and whitespace runs
collapse to an underscore. -/
def safeName (rel : String) : String :=
  if rel = "" then "__root" else collapseWs (slashToUnderscore rel)

/-- An uppercase hexadecimal digit. -/
def hexDigit (n : Nat) : Char :=
  if n < 10 then Char.ofNat (48 + n) else Char.ofNat (55 + n)

/-- The UTF-8 bytes of a character (as naturals). -/
def utf8Bytes (c : Char) : List Nat :=
  let n := c.toNat
  if n < 0x80 then [n]
  else if n < 0x800 then [0xc0 + n / 64, 0x80 + n % 64]
  else if n < 0x10000 then [0xe0 + n / 4096, 0x80 + n / 64 % 64, 0x80 + n % 64]
  else [0xf0 + n / 262144, 0x80 + n / 4096 % 64, 0x80 + n / 64 % 64, 0x80 + n % 64]

/-- `%XX` percent-encoding of one byte, uppercase as `encodeURI` emits it. -/
def percentByte (b : Nat) : String :=
  "%" ++ ⟨[hexDigit (b / 16), hexDigit (b % 16)]⟩

/-- The characters JavaScript `encodeURI` leaves unescaped. -/
def uriUnescaped (c : Char) : Bool :=
  c.isAlphanum || "-_.!~*'();/?:@&=+$,#".data.contains c

/-- Model of JavaScript `encodeURI`: unreserved and reserved URI characters
are kept, every other character is percent-encoded byte-wise in UTF-8. -/
def encodeURI (s : String) : String :=
  concatAll (s.data.map fun c =>
    if uriUnescaped c then ⟨[c]⟩
    else concatAll ((utf8Bytes c).map percentByte))

/-- `targetPrefix ? targetPrefix + '/' + p : p` — the page path as linked
from the pages root (`tp` is the `targetPrefix` of the scripts). -/
def urlPathOf (tp p : String) : String :=
  if tp = "" then p else tp ++ "/" ++ p

/-- The `<loc>` href of the single-file `renderSitemap`
(`baseUrl ? baseUrl + '/' + urlPath : '/' + urlPath`): with no base URL the
path carries a leading slash. -/
def singleHref (tp b p : String) : String :=
  if b = "" then "/" ++ urlPathOf tp p else b ++ "/" ++ urlPathOf tp p

/-- The `<loc>` href of the multi-file `renderSitemapForFolder`
(`baseUrl ? baseUrl + '/' + urlPath : urlPath`): with no base URL there is
no leading slash. -/
def multiHref (tp b p : String) : String :=
  if b = "" then urlPathOf tp p else b ++ "/" ++ urlPathOf tp p

/-- One `<url><loc>…</loc></url>` sitemap entry. -/
def urlEntry (href : String) : String :=
  "<url><loc>" ++ escapeXml href ++ "</loc></url>"

/-- The sitemap document wrapper shared by both variants. -/
def sitemapUrlset (urls : String) : String :=
  "<?xml version=\"1.0\" encoding=\"UTF-8\"?>\n<urlset xmlns=\"http://www.sitemaps.org/schemas/sitemap/0.9\">\n"
    ++ urls ++ "\n</urlset>"

mutual

/-- The `collect` closure of the single-file `renderSitemap`: pushes the
node's own page `rel`s onto the accumulated array, then recurses into the
folders.  `acc` is the array contents before visiting the node. -/
def collectAcc : DirNode → List String → List String
  | .mk _ _ folders pages, acc => collectAccList folders (acc ++ pages.map PageEntry.rel)

def collectAccList : List DirNode → List String → List String
  | [], acc => acc
  | f :: fs, acc => collectAccList fs (collectAcc f acc)

end

/-- The single-file `renderSitemap(tree)` of the unnamed script,
parameterised by the ambient `targetPrefix` (`tp`) and `baseUrl` (`b`). -/
def renderSitemap (tp b : String) (tree : DirNode) : String :=
  sitemapUrlset (joinSep "\n" ((collectAcc tree []).map fun p => urlEntry (singleHref tp b p)))

mutual

/-- `collectPagesUnder(node, baseRel)` from `generate_site_index.js`,
embedded as written: each page contributes `baseRel ? baseRel + '/' + p.rel
: p.rel`, and the recursion extends `baseRel` with the folder name — even
though `p.rel` is already a full path from the scan root. -/
def collectPagesUnder : DirNode → String → List String
  | .mk _ _ folders pages, baseRel =>
    pages.map (fun p => joinRel baseRel p.rel) ++ collectPagesUnderList folders baseRel

def collectPagesUnderList : List DirNode → String → List String
  | [], _ => []
  | fd :: rest, baseRel =>
    collectPagesUnder fd (joinRel baseRel fd.name) ++ collectPagesUnderList rest baseRel

end

mutual

/-- `collectFolderNodes(node, rel)` from `generate_site_index.js`: the node
itself (as `{ rel, node }`), followed pre-order by all descendant folder
nodes, with `rel` recomputed along the way from the folder names. -/
def collectFolderNodes : DirNode → String → List RelNode
  | .mk n r folders pages, rel =>
    ⟨rel, .mk n r folders pages⟩ :: collectFolderNodesList folders rel

def collectFolderNodesList : List DirNode → String → List RelNode
  | [], _ => []
  | fd :: rest, rel =>
    collectFolderNodes fd (joinRel rel fd.name) ++ collectFolderNodesList rest rel

end

/-- The per-folder sitemap file name `'sitemap_' + safeName(rel) + '.xml'`. -/
def sitemapFileName (rel : String) : String :=
  "sitemap_" ++ safeName rel ++ ".xml"

/-- `renderSitemapForFolder(folderRel, pagesList)` from
`generate_site_index.js` (the `folderRel` parameter is unused there too). -/
def renderSitemapForFolder (tp b _folderRel : String) (pagesList : List String) : String :=
  sitemapUrlset (joinSep "\n" (pagesList.map fun p => urlEntry (multiHref tp b p)))

/-- The per-folder sitemap loop of `generate_site_index.js`: for every folder
node except the root (`if (!rel) continue`) one file named
`sitemaps/sitemap_<safeName rel>.xml` with content
`renderSitemapForFolder(rel, collectPagesUnder(node, ''))`. -/
def sitemapEntriesFor (tp b : String) (t : DirNode) : List (String × String) :=
  ((collectFolderNodes t "").filter fun f => decide (f.rel ≠ "")).map fun f =>
    ("sitemaps/" ++ sitemapFileName f.rel,
      renderSitemapForFolder tp b f.rel (collectPagesUnder f.node ""))

/-- The `sitemapFiles` array accumulated by that loop: the relative paths of
the written per-folder sitemaps. -/
def sitemapFiles (t : DirNode) : List String :=
  ((collectFolderNodes t "").filter fun f => decide (f.rel ≠ "")).map fun f =>
    "sitemaps/" ++ sitemapFileName f.rel

/-- One `<sitemap><loc>…</loc></sitemap>` entry of the sitemap index
(no leading slash when `baseUrl` is absent). -/
def sitemapIndexEntry (b s : String) : String :=
  "<sitemap><loc>" ++ escapeXml (if b = "" then s else b ++ "/" ++ s) ++ "</loc></sitemap>"

/-- `renderSitemapIndex(sitemaps)` from `generate_site_index.js`. -/
def renderSitemapIndex (b : String) (sitemaps : List String) : String :=
  "<?xml version=\"1.0\" encoding=\"UTF-8\"?>\n<sitemapindex xmlns=\"http://www.sitemaps.org/schemas/sitemap/0.9\">\n"
    ++ joinSep "\n" (sitemaps.map (sitemapIndexEntry b)) ++ "\n</sitemapindex>"

/-- Splitting a character list at newline characters (`raw.split('\n')`). -/
def splitNlAux : List Char → List Char → List String
  | [], acc => [⟨acc.reverse⟩]
  | c :: cs, acc =>
    if c = '\n' then ⟨acc.reverse⟩ :: splitNlAux cs []
    else splitNlAux cs (c :: acc)

/-- `raw.split('\n')`. -/
def splitNl (s : String) : List String :=
  splitNlAux s.data []

/-- The changed-file acquisition of both scripts:
`try { raw = run('git diff-tree …'); changedFiles = raw.split('\n').filter(Boolean) }
catch (e) { changedFiles = [] }` — a failing version-control query is
replaced by the empty list. -/
def changedFilesOf : Except Unit String → List String
  | Except.error _ => []
  | Except.ok raw => (splitNl raw).filter fun s => decide (s ≠ "")

/-- The placeholder item rendered when no page changed in the latest
commit. -/
def latestPlaceholder : String :=
  "<li>None in latest commit</li>"

/-- One `<li><a href="./…">…</a></li>` link item of the latest-changes
list. -/
def latestLinkItem (tp p : String) : String :=
  "<li><a href=\"./" ++ (encodeURI (urlPathOf tp p)
    ++ ("\">" ++ (urlPathOf tp p ++ "</a></li>")))

/-- The list of `<li>` items of the recently-edited section:
`changedPagesList.length ? changedPagesList.map(...) : [placeholder]`. -/
def latestItems (tp : String) (l : List String) : List String :=
  if l.length ≠ 0 then l.map (latestLinkItem tp) else [latestPlaceholder]

/-- The `items` string of `renderLatestChanges`
(`length ? map(...).join('\n') : '<li>None in latest commit</li>'`). -/
def latestItemsStr (tp : String) (l : List String) : String :=
  if l.length ≠ 0 then joinSep "\n" (l.map (latestLinkItem tp)) else latestPlaceholder

/-- `renderLatestChanges(changedPagesList)` from `generate_site_index.js`. -/
def renderLatestChanges (tp : String) (l : List String) : String :=
  "<!doctype html>\n<html>\n<head><meta charset=\"utf-8\"><meta name=\"viewport\" content=\"width=device-width,initial-scale=1\"><title>Latest Changes</title></head>\n<body>\n<h1>Latest Changes</h1>\n<section><ul>"
    ++ latestItemsStr tp l ++ "</ul></section>\n</body>\n</html>"

/-- Recognises a rendered link item (it begins with `<li><a`); the
placeholder item begins with `<li>N` instead. -/
def isLinkEntry (s : String) : Bool :=
  startsList s.data "<li><a".data

/-- `'Index for ' + (folderRel || '/')`. -/
def dirIndexTitle (folderRel : String) : String :=
  "Index for " ++ (if folderRel = "" then "/" else folderRel)

/-- `relToRoot === '.' ? './latest_changes.html' : relToRoot + '/latest_changes.html'`. -/
def dirLatestHref (relToRoot : String) : String :=
  if relToRoot = "." then "./latest_changes.html" else relToRoot ++ "/latest_changes.html"

/-- The `filesList` of `renderDirIndex` (`.join('\n') || '<li>(no pages)</li>'`). -/
def dirFilesList (pages : List PageEntry) : String :=
  let s := joinSep "\n" (pages.map fun pg =>
    "<li><a href=\"./" ++ encodeURI pg.name ++ "\">" ++ pg.name ++ "</a></li>")
  if s = "" then "<li>(no pages)</li>" else s

/-- The `subfoldersList` of `renderDirIndex`. -/
def dirSubfoldersList (folders : List DirNode) : String :=
  let s := joinSep "\n" (folders.map fun fd =>
    "<li><a href=\"./" ++ fd.name ++ "/\">" ++ fd.name ++ "/</a></li>")
  if s = "" then "<li>(no subfolders)</li>" else s

/-- The `backHref` of `renderDirIndex`: `'../'` inside a subfolder, and at
the target root the path back to the pages root (the same
`path.relative(dirAbsolutePath, pagesDir) || '.'` value as `relToRoot`)
followed by `'/'`. -/
def dirBackHref (folderRel relToRoot : String) : String :=
  if folderRel = "" then relToRoot ++ "/" else "../"

/-- `renderDirIndex(folderRel, folderNode, dirAbsolutePath)` from
`generate_site_index.js`, with `relToRoot` standing for the computed
`toWebPath(path.relative(dirAbsolutePath, pagesDir) || '.')`. -/
def renderDirIndex (folderRel : String) (node : DirNode) (relToRoot : String) : String :=
  "<!doctype html>\n<html>\n<head><meta charset=\"utf-8\"><meta name=\"viewport\" content=\"width=device-width,initial-scale=1\"><title>"
    ++ dirIndexTitle folderRel
    ++ "</title></head>\n<body>\n"
    ++ ("<p><a href=\"" ++ dirLatestHref relToRoot ++ "\">Latest changes</a></p>")
    ++ ("\n<h1>" ++ dirIndexTitle folderRel
      ++ "</h1>\n<section><h2>Files</h2><ul>" ++ dirFilesList node.pages
      ++ "</ul></section>\n<section><h2>Subfolders</h2><ul>" ++ dirSubfoldersList node.folders
      ++ "</ul></section>\n")
    ++ ("<p><a href=\"" ++ dirBackHref folderRel relToRoot ++ "\">Back</a></p>")
    ++ "\n</body>\n</html>"

/-- Does the pattern occur (contiguously) somewhere in `l`? -/
def containsPat : List Char → List Char → Bool
  | l, pat =>
    match l with
    | [] => pat == []
    | _ :: rest => startsList l pat || containsPat rest pat

/-! ### Specification-side definitions -/

mutual

/-- The flat page-path sequence described by the (amended) specification of
single-file sitemap collection: a pre-order traversal emitting each node's
own pages first, then the pages of its subfolders, recursively. -/
def collectSpec : DirNode → List String
  | .mk _ _ folders pages => pages.map PageEntry.rel ++ collectSpecList folders

def collectSpecList : List DirNode → List String
  | [] => []
  | f :: fs => collectSpec f ++ collectSpecList fs

end

mutual

/-- The traversal order asserted by the claim under test for C3: folders
visited *before* the node's own pages, at every node. -/
def collectFoldersFirst : DirNode → List String
  | .mk _ _ folders pages => collectFoldersFirstList folders ++ pages.map PageEntry.rel

def collectFoldersFirstList : List DirNode → List String
  | [] => []
  | f :: fs => collectFoldersFirst f ++ collectFoldersFirstList fs

end

/-- Strictly increasing case-sensitive (code-unit) lexicographic order — the
collation asserted by the claim under test for C1, under which `"B.html"`
precedes `"a.html"`. -/
def codeUnitLt (a b : String) : Prop :=
  cmpNatList (a.data.map Char.toNat) (b.data.map Char.toNat) = Ordering.lt

instance : DecidableRel codeUnitLt :=
  fun a b => inferInstanceAs
    (Decidable (cmpNatList (a.data.map Char.toNat) (b.data.map Char.toNat) = Ordering.lt))

mutual

/-- All page entries occurring anywhere in a built tree. -/
def allPages : DirNode → List PageEntry
  | .mk _ _ folders pages => pages ++ allPagesList folders

def allPagesList : List DirNode → List PageEntry
  | [] => []
  | f :: fs => allPages f ++ allPagesList fs

end

mutual

/-- Specification-side enumeration (from the amended claim for C5) of the
page entries that should appear in the tree: non-hidden files whose
lowercased name ends in `.html`, recursing only into non-hidden
directories. -/
def specPagesEntry : FSEntry → String → List PageEntry
  | .file n, pre =>
    if !isHidden n && isHtmlName n then [⟨n, toWebPath (joinRel pre n)⟩] else []
  | .dir n ch, pre =>
    if isHidden n then [] else specPagesList ch (joinRel pre n)

def specPagesList : List FSEntry → String → List PageEntry
  | [], _ => []
  | e :: rest, pre => specPagesEntry e pre ++ specPagesList rest pre

end

mutual

/-- No folder or page name anywhere in the tree starts with the hidden-file
marker `'.'`. -/
def treeNoHidden : DirNode → Bool
  | .mk _ _ folders pages =>
    pages.all (fun p => !isHidden p.name) && treeNoHiddenList folders

def treeNoHiddenList : List DirNode → Bool
  | [] => true
  | f :: fs => !isHidden f.name && treeNoHidden f && treeNoHiddenList fs

end

/-- Strictly increasing (under `localeCompare`) chain of names. -/
def chainLtNames : List String → Bool
  | [] => true
  | [_] => true
  | a :: b :: rest => decide (localeCompare a b = Ordering.lt) && chainLtNames (b :: rest)

mutual

/-- At every node of the tree, the folder list and the page list are each
strictly sorted by name under `localeCompare`. -/
def sortedTree : DirNode → Bool
  | .mk _ _ folders pages =>
    chainLtNames (folders.map DirNode.name) && chainLtNames (pages.map PageEntry.name)
      && sortedTreeList folders

def sortedTreeList : List DirNode → Bool
  | [] => true
  | f :: fs => sortedTree f && sortedTreeList fs

end

/-- Names pairwise distinct under the collation (no two compare `eq`). -/
def namesPairwiseNe : List String → Bool
  | [] => true
  | n :: ns => ns.all (fun m => decide (localeCompare n m ≠ Ordering.eq)) && namesPairwiseNe ns

mutual

/-- Well-formedness of one entry: a directory's listing is well-formed. -/
def wfEntry : FSEntry → Bool
  | .file _ => true
  | .dir _ ch => namesPairwiseNe (ch.map FSEntry.name) && wfEntriesAll ch

def wfEntriesAll : List FSEntry → Bool
  | [] => true
  | e :: rest => wfEntry e && wfEntriesAll rest

end

/-- Well-formed directory listing: entry names at every level are pairwise
distinct under the collation (true of any real directory whose ASCII entry
names are distinct strings). -/
def wfListing (l : List FSEntry) : Bool :=
  namesPairwiseNe (l.map FSEntry.name) && wfEntriesAll l

mutual

/-- Number of page files at or below a node. -/
def pagesBelow : DirNode → Nat
  | .mk _ _ folders pages => pages.length + pagesBelowList folders

def pagesBelowList : List DirNode → Nat
  | [] => 0
  | f :: fs => pagesBelow f + pagesBelowList fs

end

/-! ### Order-theoretic facts about the collation model -/

theorem cmpNatList_eq_iff : ∀ {a b : List Nat}, cmpNatList a b = Ordering.eq ↔ a = b := by
  intro a
  induction a with
  | nil => intro b; cases b <;> simp [cmpNatList]
  | cons x xs ih =>
    intro b
    cases b with
    | nil => simp [cmpNatList]
    | cons y ys =>
      simp only [cmpNatList]
      split_ifs with h1 h2
      · constructor
        · intro h; exact absurd h (by decide)
        · intro h
          injection h with hx _
          exact absurd hx (by omega)
      · constructor
        · intro h; exact absurd h (by decide)
        · intro h
          injection h with hx _
          exact absurd hx (by omega)
      · have hxy : x = y := by omega
        subst hxy
        simp [ih]

theorem cmpNatList_swap : ∀ (a b : List Nat), cmpNatList b a = (cmpNatList a b).swap := by
  intro a
  induction a with
  | nil => intro b; cases b <;> simp [cmpNatList, Ordering.swap]
  | cons x xs ih =>
    intro b
    cases b with
    | nil => simp [cmpNatList, Ordering.swap]
    | cons y ys =>
      simp only [cmpNatList]
      split_ifs with h1 h2 h3 h4 <;>
        first
          | rfl
          | omega
          | (exact ih ys)

theorem cmpNatList_lt_trans : ∀ {a b c : List Nat}, cmpNatList a b = Ordering.lt →
    cmpNatList b c = Ordering.lt → cmpNatList a c = Ordering.lt := by
  intro a
  induction a with
  | nil =>
    intro b c hab hbc
    cases b with
    | nil => exact absurd hab (by simp [cmpNatList])
    | cons y ys =>
      cases c with
      | nil => exact absurd hbc (by simp [cmpNatList])
      | cons z zs => simp [cmpNatList]
  | cons x xs ih =>
    intro b c hab hbc
    cases b with
    | nil => exact absurd hab (by simp [cmpNatList])
    | cons y ys =>
      cases c with
      | nil => exact absurd hbc (by simp [cmpNatList])
      | cons z zs =>
        simp only [cmpNatList] at hab hbc ⊢
        split_ifs at hab with h1 h2
        · split_ifs at hbc with h3 h4
          · split_ifs with h5 h6 <;> first | rfl | omega
          · split_ifs with h5 h6 <;> first | rfl | omega
        · split_ifs at hbc with h3 h4
          · split_ifs with h5 h6 <;> first | rfl | omega
          · split_ifs with h5 h6 <;> first | rfl | omega | (exact ih hab hbc)

theorem localeCompare_swap (a b : String) :
    localeCompare b a = (localeCompare a b).swap := by
  unfold localeCompare
  rw [cmpNatList_swap (primaryKey a) (primaryKey b),
    cmpNatList_swap (caseKey a) (caseKey b)]
  rcases cmpNatList (primaryKey a) (primaryKey b) with _ | _ | _ <;> rfl

theorem localeLe_total (a b : String) : localeLe a b ∨ localeLe b a := by
  unfold localeLe
  rcases h : localeCompare a b with _ | _ | _
  · left; simp
  · left; simp
  · right
    rw [localeCompare_swap a b, h]
    decide

theorem localeCompare_ngt_trans {a b c : String} (hab : localeCompare a b ≠ Ordering.gt)
    (hbc : localeCompare b c ≠ Ordering.gt) : localeCompare a c ≠ Ordering.gt := by
  unfold localeCompare at hab hbc ⊢
  rcases hp1 : cmpNatList (primaryKey a) (primaryKey b) with _ | _ | _ <;> rw [hp1] at hab
  · rcases hp2 : cmpNatList (primaryKey b) (primaryKey c) with _ | _ | _ <;> rw [hp2] at hbc
    · rw [cmpNatList_lt_trans hp1 hp2]
      exact (by decide : Ordering.lt ≠ Ordering.gt)
    · have he : primaryKey b = primaryKey c := cmpNatList_eq_iff.mp hp2
      rw [← he, hp1]
      exact (by decide : Ordering.lt ≠ Ordering.gt)
    · exact fun _ => hbc rfl
  · rcases hp2 : cmpNatList (primaryKey b) (primaryKey c) with _ | _ | _ <;> rw [hp2] at hbc
    · have he : primaryKey a = primaryKey b := cmpNatList_eq_iff.mp hp1
      rw [he, hp2]
      exact (by decide : Ordering.lt ≠ Ordering.gt)
    · have heq : cmpNatList (primaryKey a) (primaryKey c) = Ordering.eq :=
        cmpNatList_eq_iff.mpr ((cmpNatList_eq_iff.mp hp1).trans (cmpNatList_eq_iff.mp hp2))
      rw [heq]
      have hab' : cmpNatList (caseKey a) (caseKey b) ≠ Ordering.gt := hab
      have hbc' : cmpNatList (caseKey b) (caseKey c) ≠ Ordering.gt := hbc
      show cmpNatList (caseKey a) (caseKey c) ≠ Ordering.gt
      rcases hc1 : cmpNatList (caseKey a) (caseKey b) with _ | _ | _
      · rcases hc2 : cmpNatList (caseKey b) (caseKey c) with _ | _ | _
        · rw [cmpNatList_lt_trans hc1 hc2]
          exact (by decide : Ordering.lt ≠ Ordering.gt)
        · have hce : caseKey b = caseKey c := cmpNatList_eq_iff.mp hc2
          rw [← hce, hc1]
          exact (by decide : Ordering.lt ≠ Ordering.gt)
        · exact absurd hc2 hbc'
      · have hce : caseKey a = caseKey b := cmpNatList_eq_iff.mp hc1
        rw [hce]; exact hbc'
      · exact absurd hc1 hab'
    · exact fun _ => hbc rfl
  · exact fun _ => hab rfl

theorem localeLe_trans {a b c : String} (hab : localeLe a b) (hbc : localeLe b c) :
    localeLe a c :=
  localeCompare_ngt_trans hab hbc

theorem localeCompare_eq_symm {a b : String} (h : localeCompare a b = Ordering.eq) :
    localeCompare b a = Ordering.eq := by
  rw [localeCompare_swap a b, h]
  rfl

theorem localeCompare_lt_of_ne {a b : String} (h1 : localeCompare a b ≠ Ordering.gt)
    (h2 : localeCompare a b ≠ Ordering.eq) : localeCompare a b = Ordering.lt := by
  rcases h : localeCompare a b with _ | _ | _
  · rfl
  · exact absurd h h2
  · exact absurd h h1

/-! ### Bridges between the boolean checkers and `List.Pairwise` -/

theorem namesPairwiseNe_iff : ∀ {l : List String}, namesPairwiseNe l = true ↔
    l.Pairwise fun a b => localeCompare a b ≠ Ordering.eq := by
  intro l
  induction l with
  | nil => simp [namesPairwiseNe]
  | cons n ns ih =>
    simp [namesPairwiseNe, List.pairwise_cons, ih, List.all_eq_true, and_comm]

theorem chainLtNames_of_pairwise : ∀ {l : List String},
    (l.Pairwise fun a b => localeCompare a b = Ordering.lt) → chainLtNames l = true := by
  intro l
  induction l with
  | nil => intro _; rfl
  | cons a t ih =>
    cases t with
    | nil => intro _; rfl
    | cons b m =>
      intro h
      rw [List.pairwise_cons] at h
      obtain ⟨hab, h2⟩ := h
      have hc := ih h2
      simp [chainLtNames, hc, hab b (by simp)]

theorem sortedTreeList_iff : ∀ {l : List DirNode},
    sortedTreeList l = true ↔ ∀ f ∈ l, sortedTree f = true := by
  intro l
  induction l with
  | nil => simp [sortedTreeList]
  | cons f fs ih => simp [sortedTreeList, ih]

theorem sortedTreeList_append (a b : List DirNode) :
    sortedTreeList (a ++ b) = (sortedTreeList a && sortedTreeList b) := by
  induction a with
  | nil => simp [sortedTreeList]
  | cons f fs ih => simp [sortedTreeList, ih, Bool.and_assoc]

theorem wfEntriesAll_append (a b : List FSEntry) :
    wfEntriesAll (a ++ b) = (wfEntriesAll a && wfEntriesAll b) := by
  induction a with
  | nil => simp [wfEntriesAll]
  | cons e es ih => simp [wfEntriesAll, ih, Bool.and_assoc]

/-! ### The collected entries' names form a sublist of the listing's names -/

theorem walkEntry_names_sublist (e : FSEntry) (pre : String) :
    ((walkEntry e pre).1.map DirNode.name).Sublist [e.name] ∧
    ((walkEntry e pre).2.map PageEntry.name).Sublist [e.name] := by
  cases e with
  | file n =>
    simp only [walkEntry]
    split_ifs <;> simp [FSEntry.name]
  | dir n ch =>
    simp only [walkEntry]
    split_ifs <;> simp [FSEntry.name, DirNode.name]

theorem walkEntries_names_sublist : ∀ (l : List FSEntry) (pre : String),
    ((walkEntries l pre).1.map DirNode.name).Sublist (l.map FSEntry.name) ∧
    ((walkEntries l pre).2.map PageEntry.name).Sublist (l.map FSEntry.name) := by
  intro l
  induction l with
  | nil => intro pre; simp [walkEntries]
  | cons e rest ih =>
    intro pre
    have h1 := walkEntry_names_sublist e pre
    have h2 := ih pre
    simp only [walkEntries, List.map_append, List.map_cons]
    constructor
    · have : [e.name] ++ rest.map FSEntry.name = e.name :: rest.map FSEntry.name := rfl
      rw [← this]
      exact h1.1.append h2.1
    · have : [e.name] ++ rest.map FSEntry.name = e.name :: rest.map FSEntry.name := rfl
      rw [← this]
      exact h1.2.append h2.2

/-! ### A freshly sorted node is sorted -/

theorem pairwise_ne_symm {l : List String}
    (h : l.Pairwise fun a b => localeCompare a b ≠ Ordering.eq) {l' : List String}
    (hp : l'.Perm l) : l'.Pairwise fun a b => localeCompare a b ≠ Ordering.eq := by
  refine (List.Perm.pairwise_iff ?_ hp).mpr h
  intro x y hxy he
  exact hxy (localeCompare_eq_symm he)

theorem mk_sorted (x y : String) (fl : List DirNode) (pl : List PageEntry)
    (hf : (fl.map DirNode.name).Pairwise fun a b => localeCompare a b ≠ Ordering.eq)
    (hp : (pl.map PageEntry.name).Pairwise fun a b => localeCompare a b ≠ Ordering.eq)
    (hrec : sortedTreeList fl = true) :
    sortedTree (DirNode.mk x y (sortFolders fl) (sortPages pl)) = true := by
  haveI : IsTotal DirNode folderLe := ⟨fun a b => localeLe_total a.name b.name⟩
  haveI : IsTrans DirNode folderLe := ⟨fun a b c hab hbc => localeLe_trans hab hbc⟩
  haveI : IsTotal PageEntry pageLe := ⟨fun a b => localeLe_total a.name b.name⟩
  haveI : IsTrans PageEntry pageLe := ⟨fun a b c hab hbc => localeLe_trans hab hbc⟩
  have hsf : (sortFolders fl).Pairwise folderLe := List.sorted_insertionSort folderLe fl
  have hsp : (sortPages pl).Pairwise pageLe := List.sorted_insertionSort pageLe pl
  have hpermf : (sortFolders fl).Perm fl := List.perm_insertionSort folderLe fl
  have hpermp : (sortPages pl).Perm pl := List.perm_insertionSort pageLe pl
  have hnf : ((sortFolders fl).map DirNode.name).Pairwise
      fun a b => localeCompare a b ≠ Ordering.eq :=
    pairwise_ne_symm hf (hpermf.map DirNode.name)
  have hnp : ((sortPages pl).map PageEntry.name).Pairwise
      fun a b => localeCompare a b ≠ Ordering.eq :=
    pairwise_ne_symm hp (hpermp.map PageEntry.name)
  have hltf : ((sortFolders fl).map DirNode.name).Pairwise
      fun a b => localeCompare a b = Ordering.lt := by
    rw [List.pairwise_map] at hnf ⊢
    exact (hsf.and hnf).imp fun {a b} h => localeCompare_lt_of_ne h.1 h.2
  have hltp : ((sortPages pl).map PageEntry.name).Pairwise
      fun a b => localeCompare a b = Ordering.lt := by
    rw [List.pairwise_map] at hnp ⊢
    exact (hsp.and hnp).imp fun {a b} h => localeCompare_lt_of_ne h.1 h.2
  have hrec' : sortedTreeList (sortFolders fl) = true := by
    rw [sortedTreeList_iff]
    intro f hfmem
    exact sortedTreeList_iff.mp hrec f (hpermf.mem_iff.mp hfmem)
  simp only [sortedTree, Bool.and_eq_true]
  exact ⟨⟨chainLtNames_of_pairwise hltf, chainLtNames_of_pairwise hltp⟩, hrec'⟩

/-! ### `walk` produces a sorted tree -/

mutual

theorem walkEntry_sorted : ∀ (e : FSEntry) (pre : String), wfEntry e = true →
    sortedTreeList (walkEntry e pre).1 = true
  | .file n, pre, _ => by
    simp only [walkEntry]
    split_ifs <;> rfl
  | .dir n ch, pre, h => by
    simp only [walkEntry]
    split_ifs with hh
    · rfl
    · have hwf : namesPairwiseNe (ch.map FSEntry.name) = true ∧ wfEntriesAll ch = true := by
        simpa [wfEntry, Bool.and_eq_true] using h
      have hsub := walkEntries_names_sublist ch (joinRel pre n)
      have hrec := walkEntries_sorted ch (joinRel pre n) hwf.2
      have hne := namesPairwiseNe_iff.mp hwf.1
      have hnf := hne.sublist hsub.1
      have hnp := hne.sublist hsub.2
      have hmk := mk_sorted n (toWebPath (joinRel pre n))
        (walkEntries ch (joinRel pre n)).1 (walkEntries ch (joinRel pre n)).2 hnf hnp hrec
      simp [sortedTreeList, hmk]

theorem walkEntries_sorted : ∀ (l : List FSEntry) (pre : String), wfEntriesAll l = true →
    sortedTreeList (walkEntries l pre).1 = true
  | [], _, _ => rfl
  | e :: rest, pre, h => by
    have h1 : wfEntry e = true ∧ wfEntriesAll rest = true := by
      simpa [wfEntriesAll, Bool.and_eq_true] using h
    have ha := walkEntry_sorted e pre h1.1
    have hb := walkEntries_sorted rest pre h1.2
    simp only [walkEntries]
    rw [sortedTreeList_append]
    simp [ha, hb]

end

theorem walk_sorted (l : List FSEntry) (pre : String) (h : wfListing l = true) :
    sortedTree (walk l pre) = true := by
  have h12 : namesPairwiseNe (l.map FSEntry.name) = true ∧ wfEntriesAll l = true := by
    simpa [wfListing, Bool.and_eq_true] using h
  have hsub := walkEntries_names_sublist l pre
  have hne := namesPairwiseNe_iff.mp h12.1
  exact mk_sorted "" "" (walkEntries l pre).1 (walkEntries l pre).2
    (hne.sublist hsub.1) (hne.sublist hsub.2) (walkEntries_sorted l pre h12.2)

/-! ### No hidden entry survives the walk -/

theorem treeNoHiddenList_iff : ∀ {l : List DirNode}, treeNoHiddenList l = true ↔
    ∀ f ∈ l, isHidden f.name = false ∧ treeNoHidden f = true := by
  intro l
  induction l with
  | nil => simp [treeNoHiddenList]
  | cons f fs ih => simp [treeNoHiddenList, ih]

mutual

theorem walkEntry_noHidden : ∀ (e : FSEntry) (pre : String),
    (∀ f ∈ (walkEntry e pre).1, isHidden f.name = false ∧ treeNoHidden f = true) ∧
    (∀ p ∈ (walkEntry e pre).2, isHidden p.name = false)
  | .file n, pre => by
    simp only [walkEntry]
    split_ifs with h1 h2 <;> simp_all
  | .dir n ch, pre => by
    simp only [walkEntry]
    split_ifs with h1
    · simp
    · have hr := walkEntries_noHidden ch (joinRel pre n)
      constructor
      · intro f hf
        simp only [List.mem_singleton] at hf
        subst hf
        refine ⟨by simpa using h1, ?_⟩
        simp only [treeNoHidden, Bool.and_eq_true]
        constructor
        · rw [List.all_eq_true]
          intro p hp
          have hmem : p ∈ (walkEntries ch (joinRel pre n)).2 :=
            (List.perm_insertionSort pageLe _).mem_iff.mp hp
          simp [hr.2 p hmem]
        · rw [treeNoHiddenList_iff]
          intro f hf
          exact hr.1 f ((List.perm_insertionSort folderLe _).mem_iff.mp hf)
      · intro p hp
        simp at hp

theorem walkEntries_noHidden : ∀ (l : List FSEntry) (pre : String),
    (∀ f ∈ (walkEntries l pre).1, isHidden f.name = false ∧ treeNoHidden f = true) ∧
    (∀ p ∈ (walkEntries l pre).2, isHidden p.name = false)
  | [], _ => by simp [walkEntries]
  | e :: rest, pre => by
    have h1 := walkEntry_noHidden e pre
    have h2 := walkEntries_noHidden rest pre
    simp only [walkEntries]
    constructor
    · intro f hf
      rcases List.mem_append.mp hf with h | h
      · exact h1.1 f h
      · exact h2.1 f h
    · intro p hp
      rcases List.mem_append.mp hp with h | h
      · exact h1.2 p h
      · exact h2.2 p h

end

theorem walk_noHidden (l : List FSEntry) (pre : String) :
    treeNoHidden (walk l pre) = true := by
  have hr := walkEntries_noHidden l pre
  simp only [walk, treeNoHidden, Bool.and_eq_true]
  constructor
  · rw [List.all_eq_true]
    intro p hp
    have hmem : p ∈ (walkEntries l pre).2 :=
      (List.perm_insertionSort pageLe _).mem_iff.mp hp
    simp [hr.2 p hmem]
  · rw [treeNoHiddenList_iff]
    intro f hf
    exact hr.1 f ((List.perm_insertionSort folderLe _).mem_iff.mp hf)

/-! ### Page membership in the walked tree -/

theorem allPagesList_mem : ∀ {fs : List DirNode} {pg : PageEntry},
    pg ∈ allPagesList fs ↔ ∃ f ∈ fs, pg ∈ allPages f := by
  intro fs
  induction fs with
  | nil => simp [allPagesList]
  | cons f fs ih => intro pg; simp [allPagesList, ih]

mutual

theorem walkEntry_pages_mem : ∀ (e : FSEntry) (pre : String) (pg : PageEntry),
    (pg ∈ (walkEntry e pre).2 ∨ ∃ f ∈ (walkEntry e pre).1, pg ∈ allPages f) ↔
      pg ∈ specPagesEntry e pre
  | .file n, pre, pg => by
    simp only [walkEntry, specPagesEntry]
    split_ifs with h1 h2 <;> simp_all
  | .dir n ch, pre, pg => by
    simp only [walkEntry, specPagesEntry]
    split_ifs with h1
    · simp
    · have ih := walkEntries_pages_mem ch (joinRel pre n) pg
      simp only [List.mem_singleton, List.not_mem_nil, false_or]
      constructor
      · rintro ⟨f, hf, hpg⟩
        subst hf
        rw [← ih]
        simp only [allPages] at hpg
        rcases List.mem_append.mp hpg with h | h
        · exact Or.inl ((List.perm_insertionSort pageLe _).mem_iff.mp h)
        · right
          rw [allPagesList_mem] at h
          obtain ⟨f, hf, hp⟩ := h
          exact ⟨f, (List.perm_insertionSort folderLe _).mem_iff.mp hf, hp⟩
      · intro hspec
        rw [← ih] at hspec
        refine ⟨_, rfl, ?_⟩
        simp only [allPages]
        rcases hspec with h | h
        · exact List.mem_append.mpr (Or.inl ((List.perm_insertionSort pageLe _).mem_iff.mpr h))
        · refine List.mem_append.mpr (Or.inr ?_)
          rw [allPagesList_mem]
          obtain ⟨f, hf, hp⟩ := h
          exact ⟨f, (List.perm_insertionSort folderLe _).mem_iff.mpr hf, hp⟩

theorem walkEntries_pages_mem : ∀ (l : List FSEntry) (pre : String) (pg : PageEntry),
    (pg ∈ (walkEntries l pre).2 ∨ ∃ f ∈ (walkEntries l pre).1, pg ∈ allPages f) ↔
      pg ∈ specPagesList l pre
  | [], _, pg => by simp [walkEntries, specPagesList]
  | e :: rest, pre, pg => by
    have h1 := walkEntry_pages_mem e pre pg
    have h2 := walkEntries_pages_mem rest pre pg
    simp only [walkEntries, specPagesList, List.mem_append]
    constructor
    · rintro (h | ⟨f, hf, hp⟩)
      · rcases h with h | h
        · exact Or.inl (h1.mp (Or.inl h))
        · exact Or.inr (h2.mp (Or.inl h))
      · rcases hf with h | h
        · exact Or.inl (h1.mp (Or.inr ⟨f, h, hp⟩))
        · exact Or.inr (h2.mp (Or.inr ⟨f, h, hp⟩))
    · rintro (h | h)
      · rcases h1.mpr h with h' | ⟨f, hf, hp⟩
        · exact Or.inl (Or.inl h')
        · exact Or.inr ⟨f, Or.inl hf, hp⟩
      · rcases h2.mpr h with h' | ⟨f, hf, hp⟩
        · exact Or.inl (Or.inr h')
        · exact Or.inr ⟨f, Or.inr hf, hp⟩

end

theorem walk_pages_mem (l : List FSEntry) (pre : String) (pg : PageEntry) :
    pg ∈ allPages (walk l pre) ↔ pg ∈ specPagesList l pre := by
  rw [← walkEntries_pages_mem l pre pg]
  show pg ∈ sortPages _ ++ allPagesList (sortFolders _) ↔ _
  rw [List.mem_append, allPagesList_mem]
  constructor
  · rintro (h | ⟨f, hf, hp⟩)
    · exact Or.inl ((List.perm_insertionSort pageLe _).mem_iff.mp h)
    · exact Or.inr ⟨f, (List.perm_insertionSort folderLe _).mem_iff.mp hf, hp⟩
  · rintro (h | ⟨f, hf, hp⟩)
    · exact Or.inl ((List.perm_insertionSort pageLe _).mem_iff.mpr h)
    · exact Or.inr ⟨f, (List.perm_insertionSort folderLe _).mem_iff.mpr hf, hp⟩

/-! ### The sitemap page collector -/

mutual

theorem collectAcc_eq : ∀ (t : DirNode) (acc : List String),
    collectAcc t acc = acc ++ collectSpec t
  | .mk n r folders pages, acc => by
    simp only [collectAcc, collectSpec]
    rw [collectAccList_eq folders (acc ++ pages.map PageEntry.rel), List.append_assoc]

theorem collectAccList_eq : ∀ (fs : List DirNode) (acc : List String),
    collectAccList fs acc = acc ++ collectSpecList fs
  | [], acc => by simp [collectAccList, collectSpecList]
  | f :: fs, acc => by
    simp only [collectAccList, collectSpecList]
    rw [collectAccList_eq fs (collectAcc f acc), collectAcc_eq f acc, List.append_assoc]

end

/-! ### `escapeXml` facts -/

theorem concatAll_append (a b : List String) :
    concatAll (a ++ b) = concatAll a ++ concatAll b := by
  induction a with
  | nil =>
    show concatAll b = "" ++ concatAll b
    rw [String.ext_iff, String.data_append]
    rfl
  | cons s rest ih =>
    show s ++ concatAll (rest ++ b) = (s ++ concatAll rest) ++ concatAll b
    rw [ih, String.append_assoc]

theorem escapeXml_append (a b : String) :
    escapeXml (a ++ b) = escapeXml a ++ escapeXml b := by
  unfold escapeXml
  rw [String.data_append, List.map_append, concatAll_append]

theorem concatAll_data : ∀ (l : List String),
    (concatAll l).data = l.flatMap String.data
  | [] => rfl
  | s :: rest => by
    show (s ++ concatAll rest).data = _
    rw [String.data_append, concatAll_data rest]
    rfl

theorem singleHref_noBase (tp p : String) :
    singleHref tp "" p = "/" ++ multiHref tp "" p := rfl

theorem escapeXml_singleHref (tp p : String) :
    escapeXml (singleHref tp "" p) = "/" ++ escapeXml (multiHref tp "" p) := by
  rw [singleHref_noBase, escapeXml_append]
  rfl

/-! ### Page paths reach the collected sequences -/

theorem collectSpecList_mem_of : ∀ {fs : List DirNode} {f : DirNode}, f ∈ fs →
    ∀ {s : String}, s ∈ collectSpec f → s ∈ collectSpecList fs := by
  intro fs
  induction fs with
  | nil => intro f h; exact absurd h (List.not_mem_nil f)
  | cons g gs ih =>
    intro f hf s hs
    rcases List.mem_cons.mp hf with h | h
    · subst h
      show s ∈ collectSpec f ++ collectSpecList gs
      exact List.mem_append.mpr (Or.inl hs)
    · show s ∈ collectSpec g ++ collectSpecList gs
      exact List.mem_append.mpr (Or.inr (ih h hs))

mutual

theorem collectFolderNodes_pages_mem : ∀ (t : DirNode) (rel : String) (f : RelNode),
    f ∈ collectFolderNodes t rel → ∀ pg ∈ f.node.pages, pg.rel ∈ collectSpec t
  | .mk n r folders pages, rel, f, hf, pg, hpg => by
    simp only [collectFolderNodes] at hf
    rcases List.mem_cons.mp hf with h | h
    · subst h
      simp only [RelNode.node] at hpg
      simp only [DirNode.pages] at hpg
      show pg.rel ∈ pages.map PageEntry.rel ++ collectSpecList folders
      exact List.mem_append.mpr (Or.inl (List.mem_map.mpr ⟨pg, hpg, rfl⟩))
    · have := collectFolderNodesList_pages_mem folders rel f h pg hpg
      show pg.rel ∈ pages.map PageEntry.rel ++ collectSpecList folders
      exact List.mem_append.mpr (Or.inr this)

theorem collectFolderNodesList_pages_mem : ∀ (fs : List DirNode) (rel : String) (f : RelNode),
    f ∈ collectFolderNodesList fs rel → ∀ pg ∈ f.node.pages, pg.rel ∈ collectSpecList fs
  | [], _, f, hf, _, _ => absurd hf (by simp [collectFolderNodesList])
  | fd :: rest, rel, f, hf, pg, hpg => by
    simp only [collectFolderNodesList] at hf
    rcases List.mem_append.mp hf with h | h
    · have := collectFolderNodes_pages_mem fd (joinRel rel fd.name) f h pg hpg
      show pg.rel ∈ collectSpec fd ++ collectSpecList rest
      exact List.mem_append.mpr (Or.inl this)
    · have := collectFolderNodesList_pages_mem rest rel f h pg hpg
      show pg.rel ∈ collectSpec fd ++ collectSpecList rest
      exact List.mem_append.mpr (Or.inr this)

end

theorem mem_collectPagesUnder_self (n : DirNode) (pg : PageEntry) (h : pg ∈ n.pages) :
    pg.rel ∈ collectPagesUnder n "" := by
  rcases n with ⟨nm, r, folders, pages⟩
  simp only [DirNode.pages] at h
  show pg.rel ∈ pages.map (fun p => joinRel "" p.rel) ++ collectPagesUnderList folders ""
  refine List.mem_append.mpr (Or.inl ?_)
  refine List.mem_map.mpr ⟨pg, h, ?_⟩
  rfl

/-! ### Entry counts of the per-folder sitemaps -/

mutual

theorem collectPagesUnder_length : ∀ (n : DirNode) (b : String),
    (collectPagesUnder n b).length = pagesBelow n
  | .mk nm r folders pages, b => by
    simp only [collectPagesUnder, pagesBelow, List.length_append, List.length_map]
    rw [collectPagesUnderList_length folders b]

theorem collectPagesUnderList_length : ∀ (fs : List DirNode) (b : String),
    (collectPagesUnderList fs b).length = pagesBelowList fs
  | [], _ => rfl
  | fd :: rest, b => by
    simp only [collectPagesUnderList, pagesBelowList, List.length_append]
    rw [collectPagesUnder_length fd, collectPagesUnderList_length rest b]

end

/-! ### Latest-changes items -/

theorem startsList_nil : ∀ (l : List Char), startsList l [] = true
  | [] => rfl
  | _ :: _ => rfl

theorem startsList_append_of : ∀ (pat pre rest : List Char),
    startsList pre pat = true → startsList (pre ++ rest) pat = true
  | [], pre, rest, _ => startsList_nil (pre ++ rest)
  | p :: ps, [], _, h => by simp [startsList] at h
  | p :: ps, c :: cs, rest, h => by
    simp only [List.cons_append, startsList, Bool.and_eq_true, beq_iff_eq] at h ⊢
    exact ⟨h.1, startsList_append_of ps cs rest h.2⟩

theorem isLinkEntry_latestLinkItem (tp p : String) :
    isLinkEntry (latestLinkItem tp p) = true := by
  unfold isLinkEntry latestLinkItem
  rw [String.data_append]
  exact startsList_append_of _ _ _ (by decide)

theorem latestLinkItem_ne_placeholder (tp p : String) :
    latestLinkItem tp p ≠ latestPlaceholder := by
  intro h
  have h1 := isLinkEntry_latestLinkItem tp p
  rw [h] at h1
  exact absurd h1 (by decide)

theorem count_placeholder_map (tp : String) (l : List String) :
    (l.map (latestLinkItem tp)).count latestPlaceholder = 0 := by
  rw [List.count_eq_zero]
  intro h
  obtain ⟨p, _, hp⟩ := List.mem_map.mp h
  exact latestLinkItem_ne_placeholder tp p hp

theorem countP_link_map (tp : String) (l : List String) :
    (l.map (latestLinkItem tp)).countP isLinkEntry = l.length := by
  have h : (l.map (latestLinkItem tp)).countP isLinkEntry
      = (l.map (latestLinkItem tp)).length := by
    rw [List.countP_eq_length]
    intro a ha
    obtain ⟨p, _, hp⟩ := List.mem_map.mp ha
    rw [← hp]
    exact isLinkEntry_latestLinkItem tp p
  rw [h, List.length_map]

/-! ### `safeName` injectivity on well-behaved paths -/

theorem collapseWsAux_noWs : ∀ (l : List Char), (∀ c ∈ l, isJsWs c = false) →
    collapseWsAux l false = l
  | [], _ => rfl
  | c :: cs, h => by
    have hc : isJsWs c = false := h c (by simp)
    simp only [collapseWsAux, hc, Bool.false_eq_true, if_false]
    rw [collapseWsAux_noWs cs fun d hd => h d (by simp [hd])]

theorem map_slash_inj : ∀ {l1 l2 : List Char},
    (∀ c ∈ l1, c ≠ '_' ∧ c ≠ '\\') → (∀ c ∈ l2, c ≠ '_' ∧ c ≠ '\\') →
    l1.map (fun c => if c = '/' then '_' else if c = '\\' then '_' else c) =
      l2.map (fun c => if c = '/' then '_' else if c = '\\' then '_' else c) → l1 = l2 := by
  intro l1
  induction l1 with
  | nil =>
    intro l2 _ _ h
    cases l2 with
    | nil => rfl
    | cons c cs => simp at h
  | cons a as ih =>
    intro l2 h1 h2 h
    cases l2 with
    | nil => simp at h
    | cons b bs =>
      simp only [List.map_cons, List.cons.injEq] at h
      have ha := h1 a (by simp)
      have hb := h2 b (by simp)
      have hab : a = b := by
        have hfa := h.1
        by_cases ha1 : a = '/'
        · subst ha1
          rw [if_pos rfl] at hfa
          by_cases hb1 : b = '/'
          · rw [hb1]
          · rw [if_neg hb1, if_neg hb.2] at hfa
            exact absurd hfa.symm hb.1
        · rw [if_neg ha1, if_neg ha.2] at hfa
          by_cases hb1 : b = '/'
          · subst hb1
            rw [if_pos rfl] at hfa
            exact absurd hfa ha.1
          · rw [if_neg hb1, if_neg hb.2] at hfa
            exact hfa
      rw [hab, ih (fun c hc => h1 c (by simp [hc])) (fun c hc => h2 c (by simp [hc])) h.2]

theorem safeName_eq_of_good {p : String} (hne : p ≠ "")
    (hgood : ∀ c ∈ p.data, isJsWs c = false ∧ c ≠ '_' ∧ c ≠ '\\') :
    safeName p = slashToUnderscore p := by
  unfold safeName
  rw [if_neg hne]
  show (⟨collapseWsAux (slashToUnderscore p).data false⟩ : String) = slashToUnderscore p
  have hws : ∀ c ∈ (slashToUnderscore p).data, isJsWs c = false := by
    intro c hc
    unfold slashToUnderscore at hc
    obtain ⟨d, hd, hcd⟩ := List.mem_map.mp hc
    subst hcd
    split_ifs with hd1 hd2
    · decide
    · decide
    · exact (hgood d hd).1
  rw [collapseWsAux_noWs _ hws]

theorem safeName_inj {p q : String} (hp : p ≠ "") (hq : q ≠ "") (hne : p ≠ q)
    (hgp : ∀ c ∈ p.data, isJsWs c = false ∧ c ≠ '_' ∧ c ≠ '\\')
    (hgq : ∀ c ∈ q.data, isJsWs c = false ∧ c ≠ '_' ∧ c ≠ '\\') :
    safeName p ≠ safeName q := by
  rw [safeName_eq_of_good hp hgp, safeName_eq_of_good hq hgq]
  intro h
  have hd : (slashToUnderscore p).data = (slashToUnderscore q).data := congrArg String.data h
  have hpq : p.data = q.data :=
    map_slash_inj (fun c hc => ⟨(hgp c hc).2.1, (hgp c hc).2.2⟩)
      (fun c hc => ⟨(hgq c hc).2.1, (hgq c hc).2.2⟩) hd
  exact hne (String.ext hpq)

/-! ### Claim theorems -/

/-- C1, counterexample to the claim as stated: at a root containing `a.html`
and `B.html`, `walk` orders `a.html` first, although under the case-sensitive
code-unit order asserted by the claim `B.html` strictly precedes `a.html`, so
the produced page list is not sorted that way. -/
theorem claim_C1_counterexample :
    (walk [FSEntry.file "B.html", FSEntry.file "a.html"] "").pages.map PageEntry.name
        = ["a.html", "B.html"]
      ∧ ¬ codeUnitLt "a.html" "B.html" ∧ codeUnitLt "B.html" "a.html" := by
  refine ⟨by decide, by decide, by decide⟩

/-- C1 (amended): for every directory tree whose entry names are pairwise
distinct under the collation, every subfolder list and page list of the tree
built by `walk`, at every depth, is strictly sorted by name in the
locale-aware `localeCompare` order (case-insensitive primary key, lowercase
before uppercase on ties) — so at a root containing `a.html` and `B.html`
the page order is `a.html`, `B.html`. -/
theorem claim_C1 (l : List FSEntry) (pre : String) (h : wfListing l = true) :
    sortedTree (walk l pre) = true :=
  walk_sorted l pre h

/-- Witness for C1 at a concrete listing. -/
theorem claim_C1_witness :
    wfListing [FSEntry.file "B.html", FSEntry.file "a.html",
        FSEntry.dir "sub" [FSEntry.file "c.html"]] = true
      ∧ sortedTree (walk [FSEntry.file "B.html", FSEntry.file "a.html",
        FSEntry.dir "sub" [FSEntry.file "c.html"]] "") = true :=
  ⟨by decide, claim_C1 [FSEntry.file "B.html", FSEntry.file "a.html",
    FSEntry.dir "sub" [FSEntry.file "c.html"]] "" (by decide)⟩

/-- C2, counterexample to the claim as stated: on the tree with one folder
`sub` holding `c.html` and no base URL, the single-file variant renders the
page location `/sub/c.html` while the multi-file variant's sitemap for `sub`
renders `sub/c.html` — the two documents disagree on the same page. -/
theorem claim_C2_counterexample :
    renderSitemap "" "" (walk [FSEntry.dir "sub" [FSEntry.file "c.html"]] "")
        = sitemapUrlset "<url><loc>/sub/c.html</loc></url>"
      ∧ sitemapEntriesFor "" "" (walk [FSEntry.dir "sub" [FSEntry.file "c.html"]] "")
        = [("sitemaps/sitemap_sub.xml", sitemapUrlset "<url><loc>sub/c.html</loc></url>")]
      ∧ escapeXml (singleHref "" "" "sub/c.html") ≠ escapeXml (multiHref "" "" "sub/c.html") := by
  refine ⟨by decide, by decide, by decide⟩

/-- C2 (amended): with no base URL configured, for every folder node of the
tree and every page directly inside it, the page's path reaches both the
single-file collection and that folder's own sitemap page list, and the two
variants' `<loc>` contents differ exactly by a leading `/`: the single-file
location is `"/" ++` the multi-file location. -/
theorem claim_C2 (tp : String) (t : DirNode) (f : RelNode)
    (hf : f ∈ collectFolderNodes t "") (pg : PageEntry) (hpg : pg ∈ f.node.pages) :
    pg.rel ∈ collectAcc t [] ∧ pg.rel ∈ collectPagesUnder f.node ""
      ∧ escapeXml (singleHref tp "" pg.rel) = "/" ++ escapeXml (multiHref tp "" pg.rel) := by
  refine ⟨?_, mem_collectPagesUnder_self f.node pg hpg, escapeXml_singleHref tp pg.rel⟩
  rw [collectAcc_eq t []]
  simpa using collectFolderNodes_pages_mem t "" f hf pg hpg

/-- Witness for C2 at a concrete tree (the root folder node and its page). -/
theorem claim_C2_witness :
    (⟨"a.html", "a.html"⟩ : PageEntry).rel ∈ collectAcc (walk [FSEntry.file "a.html"] "") []
      ∧ escapeXml (singleHref "" "" "a.html") = "/" ++ escapeXml (multiHref "" "" "a.html") :=
  have h := claim_C2 "" (walk [FSEntry.file "a.html"] "")
    ⟨"", walk [FSEntry.file "a.html"] ""⟩ (List.Mem.head _)
    ⟨"a.html", "a.html"⟩ (by decide)
  ⟨h.1, h.2.2⟩

/-- C3, counterexample to the claim as stated: on a root holding `a.html` and
a subfolder `sub` with `c.html`, the single-file collection emits the node's
own pages *before* the subfolder pages, not the folders-before-pages order
asserted by the claim. -/
theorem claim_C3_counterexample :
    collectAcc (walk [FSEntry.file "a.html", FSEntry.dir "sub" [FSEntry.file "c.html"]] "") []
        = ["a.html", "sub/c.html"]
      ∧ collectFoldersFirst
          (walk [FSEntry.file "a.html", FSEntry.dir "sub" [FSEntry.file "c.html"]] "")
        = ["sub/c.html", "a.html"]
      ∧ (["a.html", "sub/c.html"] : List String) ≠ ["sub/c.html", "a.html"] := by
  refine ⟨by decide, by decide, by decide⟩

/-- C3 (amended): in single-file mode `renderSitemap` collects every page
path by a pre-order traversal that visits each node's own pages *before* its
subfolders, and emits exactly one `<url><loc>…</loc></url>` entry per
collected page, in that traversal order. -/
theorem claim_C3 (tp b : String) (t : DirNode) :
    renderSitemap tp b t
        = sitemapUrlset (joinSep "\n"
            ((collectSpec t).map fun p => urlEntry (singleHref tp b p)))
      ∧ collectAcc t [] = collectSpec t := by
  have h : collectAcc t [] = collectSpec t := by simpa using collectAcc_eq t []
  constructor
  · unfold renderSitemap
    rw [h]
  · exact h

/-- C4: no entry whose name begins with the hidden-file marker `'.'` appears
anywhere in the tree built by `walk` — neither as a folder node nor as a page
entry, at any depth. -/
theorem claim_C4 (l : List FSEntry) (pre : String) :
    treeNoHidden (walk l pre) = true :=
  walk_noHidden l pre

/-- C5, counterexample to the claim as stated: the hidden file `.x.html`
case-insensitively ends in `.html`, yet `walk` produces no page for it. -/
theorem claim_C5_counterexample :
    isHtmlName ".x.html" = true ∧ allPages (walk [FSEntry.file ".x.html"] "") = [] := by
  refine ⟨by decide, by decide⟩

/-- C5 (amended): a page entry appears (at any depth) in the tree built by
`walk` exactly when the input contains a corresponding non-directory entry
whose name does not begin with `'.'`, whose lowercased name ends in `.html`,
and which is not located beneath a hidden directory. -/
theorem claim_C5 (l : List FSEntry) (pre : String) (pg : PageEntry) :
    pg ∈ allPages (walk l pre) ↔ pg ∈ specPagesList l pre :=
  walk_pages_mem l pre pg

/-- C6: a failed version-control query degenerates to the empty changed-page
list; an empty list renders exactly one placeholder item (`None in latest
commit`) and zero link items, and a non-empty list renders one link item per
element and no placeholder. -/
theorem claim_C6 (tp : String) (l : List String) :
    changedFilesOf (Except.error ()) = []
      ∧ latestItems tp l = (if l = [] then [latestPlaceholder] else l.map (latestLinkItem tp))
      ∧ (latestItems tp l).count latestPlaceholder = (if l = [] then 1 else 0)
      ∧ (latestItems tp l).countP isLinkEntry = (if l = [] then 0 else l.length)
      ∧ latestItemsStr tp l = joinSep "\n" (latestItems tp l) := by
  refine ⟨rfl, ?_, ?_, ?_, ?_⟩
  · cases l with
    | nil => simp [latestItems]
    | cons a as => simp [latestItems]
  · cases l with
    | nil =>
      simp [latestItems]
    | cons a as =>
      have hli : latestItems tp (a :: as) = (a :: as).map (latestLinkItem tp) := by
        simp [latestItems]
      rw [hli]
      simpa using count_placeholder_map tp (a :: as)
  · cases l with
    | nil =>
      have h0 : isLinkEntry latestPlaceholder = false := by decide
      simp [latestItems, List.countP_cons, h0]
    | cons a as =>
      have hli : latestItems tp (a :: as) = (a :: as).map (latestLinkItem tp) := by
        simp [latestItems]
      rw [hli]
      simpa using countP_link_map tp (a :: as)
  · cases l with
    | nil => rfl
    | cons a as => rfl

/-- C7, counterexample to the claim as stated: the distinct folder paths
`a/b` and `a_b` both occur in the tree built from a root holding `a/b/` and
`a_b/`, yet `safeName` maps them to the same file-name stem. -/
theorem claim_C7_counterexample :
    "a/b" ∈ (collectFolderNodes
        (walk [FSEntry.dir "a" [FSEntry.dir "b" []], FSEntry.dir "a_b" []] "") "").map RelNode.rel
      ∧ "a_b" ∈ (collectFolderNodes
        (walk [FSEntry.dir "a" [FSEntry.dir "b" []], FSEntry.dir "a_b" []] "") "").map RelNode.rel
      ∧ ("a/b" : String) ≠ "a_b"
      ∧ safeName "a/b" = safeName "a_b" := by
  refine ⟨by decide, by decide, by decide, by decide⟩

/-- C7 (amended): `safeName` is collision-free on the restricted domain the
open question suggests enforcing: for every two distinct nonempty folder
relative paths none of whose characters is an underscore, a whitespace
character, or a backslash, the derived names are distinct. -/
theorem claim_C7 (p q : String) (hp : p ≠ "") (hq : q ≠ "") (hne : p ≠ q)
    (hgp : ∀ c ∈ p.data, isJsWs c = false ∧ c ≠ '_' ∧ c ≠ '\\')
    (hgq : ∀ c ∈ q.data, isJsWs c = false ∧ c ≠ '_' ∧ c ≠ '\\') :
    safeName p ≠ safeName q :=
  safeName_inj hp hq hne hgp hgq

/-- Witness for C7 at two concrete paths. -/
theorem claim_C7_witness : safeName "sub" ≠ safeName "sub2" :=
  claim_C7 "sub" "sub2" (by decide) (by decide) (by decide) (by decide) (by decide)

/-- C8, counterexample to the claim as stated: the tree with a root page and
one subfolder has two folder nodes (the root and `sub`), but only one
per-folder sitemap is emitted — the root folder is skipped. -/
theorem claim_C8_counterexample :
    sitemapFiles (walk [FSEntry.file "a.html", FSEntry.dir "sub" [FSEntry.file "c.html"]] "")
        = ["sitemaps/sitemap_sub.xml"]
      ∧ (collectFolderNodes
          (walk [FSEntry.file "a.html", FSEntry.dir "sub" [FSEntry.file "c.html"]] "") "").length
        = 2
      ∧ (sitemapFiles
            (walk [FSEntry.file "a.html", FSEntry.dir "sub" [FSEntry.file "c.html"]] "")).length
        ≠ (collectFolderNodes
            (walk [FSEntry.file "a.html", FSEntry.dir "sub" [FSEntry.file "c.html"]] "") "").length := by
  refine ⟨by decide, by decide, by decide⟩

/-- C8 (amended): in multi-file mode exactly one sitemap document is emitted
for every folder node with a nonempty relative path — the root folder is
skipped — each containing one URL entry per page of that folder and its
descendants, and the sitemap-index document lists every one of these
per-folder sitemap locations. -/
theorem claim_C8 (tp b : String) (t : DirNode) :
    (sitemapFiles t).length
        = ((collectFolderNodes t "").filter fun f => decide (f.rel ≠ "")).length
      ∧ (∀ f ∈ collectFolderNodes t "", f.rel ≠ "" →
          ("sitemaps/" ++ sitemapFileName f.rel) ∈ sitemapFiles t
            ∧ ("sitemaps/" ++ sitemapFileName f.rel,
                renderSitemapForFolder tp b f.rel (collectPagesUnder f.node ""))
              ∈ sitemapEntriesFor tp b t)
      ∧ (∀ (n : DirNode) (baseRel : String),
          (collectPagesUnder n baseRel).length = pagesBelow n)
      ∧ ∀ s ∈ sitemapFiles t,
          sitemapIndexEntry b s ∈ (sitemapFiles t).map (sitemapIndexEntry b) := by
  refine ⟨?_, ?_, ?_, ?_⟩
  · unfold sitemapFiles
    rw [List.length_map]
  · intro f hf hrel
    have hmem : f ∈ (collectFolderNodes t "").filter fun g => decide (g.rel ≠ "") := by
      rw [List.mem_filter]
      exact ⟨hf, by simpa using hrel⟩
    constructor
    · unfold sitemapFiles
      exact List.mem_map.mpr ⟨f, hmem, rfl⟩
    · unfold sitemapEntriesFor
      exact List.mem_map.mpr ⟨f, hmem, rfl⟩
  · exact collectPagesUnder_length
  · intro s hs
    exact List.mem_map.mpr ⟨s, hs, rfl⟩

/-- Witness for C8 at a concrete tree and folder node. -/
theorem claim_C8_witness :
    ("sitemaps/" ++ sitemapFileName "sub")
        ∈ sitemapFiles (walk [FSEntry.file "a.html", FSEntry.dir "sub" [FSEntry.file "c.html"]] "")
      ∧ (collectPagesUnder
          (DirNode.mk "sub" "sub" [] [⟨"c.html", "sub/c.html"⟩]) "").length
        = pagesBelow (DirNode.mk "sub" "sub" [] [⟨"c.html", "sub/c.html"⟩]) :=
  have h := claim_C8 "" ""
    (walk [FSEntry.file "a.html", FSEntry.dir "sub" [FSEntry.file "c.html"]] "")
  have hf : (⟨"sub", DirNode.mk "sub" "sub" [] [⟨"c.html", "sub/c.html"⟩]⟩ : RelNode)
      ∈ collectFolderNodes
        (walk [FSEntry.file "a.html", FSEntry.dir "sub" [FSEntry.file "c.html"]] "") "" :=
    List.Mem.tail _ (List.Mem.head _)
  ⟨(h.2.1 _ hf (by decide)).1,
    h.2.2.1 (DirNode.mk "sub" "sub" [] [⟨"c.html", "sub/c.html"⟩]) ""⟩

/-- C9, counterexample to the claim as stated: at the root (`folderRel = ""`)
the rendered per-folder index still contains a back link (`>Back</a>` occurs
in the document, with target `./`). -/
theorem claim_C9_counterexample :
    containsPat (renderDirIndex "" (walk [] "") ".").data ">Back</a>".data = true
      ∧ dirBackHref "" "." = "./" := by
  refine ⟨by decide, by decide⟩

/-- C9 (amended): every per-folder index page rendered by `renderDirIndex`
contains a back link — `../` inside a subfolder, and at the root a link to
the pages root (`relToRoot ++ "/"`) — and every per-folder index page
contains a link to the separately generated latest-changes page. -/
theorem claim_C9 (folderRel : String) (node : DirNode) (relToRoot : String) :
    (∃ a b c : String, renderDirIndex folderRel node relToRoot
        = a ++ ("<p><a href=\"" ++ dirLatestHref relToRoot ++ "\">Latest changes</a></p>") ++ b
          ++ ("<p><a href=\"" ++ dirBackHref folderRel relToRoot ++ "\">Back</a></p>") ++ c)
      ∧ dirBackHref folderRel relToRoot
        = (if folderRel = "" then relToRoot ++ "/" else "../") := by
  constructor
  · refine ⟨"<!doctype html>\n<html>\n<head><meta charset=\"utf-8\"><meta name=\"viewport\" content=\"width=device-width,initial-scale=1\"><title>"
        ++ dirIndexTitle folderRel ++ "</title></head>\n<body>\n",
      "\n<h1>" ++ dirIndexTitle folderRel
        ++ "</h1>\n<section><h2>Files</h2><ul>" ++ dirFilesList node.pages
        ++ "</ul></section>\n<section><h2>Subfolders</h2><ul>" ++ dirSubfoldersList node.folders
        ++ "</ul></section>\n",
      "\n</body>\n</html>", ?_⟩
    unfold renderDirIndex
    simp only [String.append_assoc]
  · rfl

/-- C10: `escapeXml` replaces every occurrence of the five reserved XML
characters by the corresponding entity and leaves every other character
unchanged; consequently its output never contains `<`, `>`, `'` or `"`, and
is a concatenation of entity blocks and harmless single characters. -/
theorem claim_C10 (s : String) :
    (∀ c ∈ (escapeXml s).data, c ≠ '<' ∧ c ≠ '>' ∧ c ≠ '\'' ∧ c ≠ '"')
      ∧ escapeXml s = concatAll (s.data.map escChar)
      ∧ escChar '<' = "&lt;" ∧ escChar '>' = "&gt;" ∧ escChar '&' = "&amp;"
      ∧ escChar '\'' = "&apos;" ∧ escChar '"' = "&quot;"
      ∧ (∀ b ∈ s.data.map escChar,
          b ∈ (["&lt;", "&gt;", "&amp;", "&apos;", "&quot;"] : List String)
            ∨ ∃ c : Char, b = (⟨[c]⟩ : String)
                ∧ c ∉ (['<', '>', '&', '\'', '"'] : List Char)) := by
  have hchar : ∀ d : Char, ∀ c ∈ (escChar d).data,
      c ≠ '<' ∧ c ≠ '>' ∧ c ≠ '\'' ∧ c ≠ '"' := by
    intro d c hc
    unfold escChar at hc
    split_ifs at hc with h1 h2 h3 h4 h5
    · rw [show "&lt;".data = ['&', 'l', 't', ';'] from rfl] at hc
      simp only [List.mem_cons, List.not_mem_nil, or_false] at hc
      rcases hc with rfl | rfl | rfl | rfl <;> exact ⟨by decide, by decide, by decide, by decide⟩
    · rw [show "&gt;".data = ['&', 'g', 't', ';'] from rfl] at hc
      simp only [List.mem_cons, List.not_mem_nil, or_false] at hc
      rcases hc with rfl | rfl | rfl | rfl <;> exact ⟨by decide, by decide, by decide, by decide⟩
    · rw [show "&amp;".data = ['&', 'a', 'm', 'p', ';'] from rfl] at hc
      simp only [List.mem_cons, List.not_mem_nil, or_false] at hc
      rcases hc with rfl | rfl | rfl | rfl | rfl <;>
        exact ⟨by decide, by decide, by decide, by decide⟩
    · rw [show "&apos;".data = ['&', 'a', 'p', 'o', 's', ';'] from rfl] at hc
      simp only [List.mem_cons, List.not_mem_nil, or_false] at hc
      rcases hc with rfl | rfl | rfl | rfl | rfl | rfl <;>
        exact ⟨by decide, by decide, by decide, by decide⟩
    · rw [show "&quot;".data = ['&', 'q', 'u', 'o', 't', ';'] from rfl] at hc
      simp only [List.mem_cons, List.not_mem_nil, or_false] at hc
      rcases hc with rfl | rfl | rfl | rfl | rfl | rfl <;>
        exact ⟨by decide, by decide, by decide, by decide⟩
    · simp only [show ((⟨[d]⟩ : String)).data = [d] from rfl, List.mem_singleton] at hc
      subst hc
      exact ⟨h1, h2, h4, h5⟩
  refine ⟨?_, rfl, rfl, rfl, rfl, rfl, rfl, ?_⟩
  · intro c hc
    rw [show (escapeXml s).data = (s.data.map escChar).flatMap String.data from by
      rw [escapeXml, concatAll_data]] at hc
    rw [List.mem_flatMap] at hc
    obtain ⟨b, hb, hcb⟩ := hc
    obtain ⟨d, _, hd⟩ := List.mem_map.mp hb
    subst hd
    exact hchar d c hcb
  · intro b hb
    obtain ⟨d, _, hd⟩ := List.mem_map.mp hb
    subst hd
    unfold escChar
    split_ifs with h1 h2 h3 h4 h5
    · left; simp
    · left; simp
    · left; simp
    · left; simp
    · left; simp
    · right
      exact ⟨d, rfl, by simp [h1, h2, h3, h4, h5]⟩

/-- Witness for C10 at a concrete character of a concrete escaped string. -/
theorem claim_C10_witness :
    'x' ∈ (escapeXml "<x>").data ∧ 'x' ≠ '<' :=
  ⟨by decide, ((claim_C10 "<x>").1 'x' (by decide)).1⟩
